import Mathlib

set_option maxHeartbeats 1000000
set_option maxRecDepth 100000

/-!
Shallow embedding of the core text pipeline of `news_agent.py`:
normalization, tokenization, deduplication, extractive summarization,
keyword sentiment scoring, and the summary/sentiment orchestrator.
Strings are modelled by `String` / `List Char`; every definition is
structurally recursive and executable.
-/

/-- Whitespace characters of the regex class `\s` (ASCII range). -/
def isPySpace (c : Char) : Bool :=
  c == ' ' || c == '\t' || c == '\n' || c == '\r' || c == '\x0b' || c == '\x0c'

/-- Characters matched by the token pattern `[a-zA-Z']`. -/
def isWordChar (c : Char) : Bool :=
  (decide ('a' ≤ c) && decide (c ≤ 'z')) ||
    (decide ('A' ≤ c) && decide (c ≤ 'Z')) || c == '\''

/-- Sentence-terminal characters of the splitter pattern `(?<=[.!?])\s+`. -/
def isSentEnd (c : Char) : Bool := c == '.' || c == '!' || c == '?'

/-- Lowercased character data of a string (`text.lower()`; ASCII folding). -/
def lowerData (s : String) : List Char := s.data.map Char.toLower

/-- Accumulator pass extracting the maximal runs of characters satisfying
`p` (the matches of a one-character regex class applied with `+`), in
order; `acc` holds the reversed current run. -/
def runsAux (p : Char → Bool) : List Char → List Char → List (List Char)
  | [], acc => if acc = [] then [] else [acc.reverse]
  | c :: cs, acc =>
    if p c then runsAux p cs (c :: acc)
    else if acc = [] then runsAux p cs []
    else acc.reverse :: runsAux p cs []

/-- Maximal runs of characters satisfying `p`. -/
def runs (p : Char → Bool) (l : List Char) : List (List Char) := runsAux p l []

/-- One pass of `re.sub(r"\s+", " ", ·)`: replace each maximal whitespace
run by a single space; `inRun` records that the current whitespace run has
already emitted its space. -/
def collapseAux : Bool → List Char → List Char
  | _, [] => []
  | inRun, c :: cs =>
    if isPySpace c then
      if inRun then collapseAux true cs else ' ' :: collapseAux true cs
    else c :: collapseAux false cs

/-- Python `str.strip()` on character lists. -/
def pyStrip (l : List Char) : List Char :=
  ((l.dropWhile isPySpace).reverse.dropWhile isPySpace).reverse

/-- Python `str.strip()` on strings. -/
def pyStripStr (s : String) : String := String.mk (pyStrip s.data)

/-- `normalize_text`: `re.sub(r"\s+", " ", text or "").strip()`; a missing
input (`None`) behaves as the empty string. -/
def normalize_text (text : Option String) : String :=
  String.mk (pyStrip (collapseAux false (Option.getD text ("")).data))

/-- The fixed `STOPWORDS` set of `news_agent.py`. -/
def STOPWORDS : List String :=
  ["a", "an", "the", "and", "or", "but", "if", "while", "of", "to", "in",
   "on", "for", "with", "without", "by", "as", "is", "are", "was", "were",
   "be", "been", "this", "that", "these", "those", "from", "at", "it",
   "its", "into", "over", "under", "about", "after", "before", "between",
   "not", "no", "you", "your", "we", "our", "they", "their", "i", "me",
   "my", "us", "he", "she", "him", "her", "them", "his", "hers", "ours",
   "theirs"]

/-- The fixed `POS_WORDS` set of `news_agent.py`. -/
def POS_WORDS : List String :=
  ["beat", "beats", "growth", "strong", "stronger", "surge", "surges",
   "record", "optimistic", "upgrade", "upgraded", "buy", "outperform"]

/-- The fixed `NEG_WORDS` set of `news_agent.py`. -/
def NEG_WORDS : List String :=
  ["miss", "misses", "decline", "weak", "weaker", "plunge", "plunges",
   "downgrade", "downgraded", "sell", "underperform"]

/-- `tokenize`: candidate tokens are the maximal `[a-zA-Z']+` runs of the
lowercased text; stopwords and tokens of length ≤ 2 are filtered out. -/
def tokenize (text : String) : List String :=
  ((runs isWordChar (lowerData text)).map String.mk).filter
    (fun w => !decide (w ∈ STOPWORDS) && decide (2 < w.length))

/-- Head-is-whitespace test used as the lookahead in sentence splitting. -/
def headWS : List Char → Bool
  | [] => false
  | c :: _ => isPySpace c

/-- Splitter for `re.split(r"(?<=[.!?])\s+", text)`: a maximal whitespace
run immediately preceded by `.`, `!` or `?` separates sentences;
`skipping` is true while scanning such a run. -/
def splitAux : List Char → List Char → Bool → List (List Char)
  | [], acc, _ => [acc.reverse]
  | c :: cs, acc, skipping =>
    if skipping && isPySpace c then splitAux cs acc true
    else if isSentEnd c && headWS cs then
      (c :: acc).reverse :: splitAux cs [] true
    else splitAux cs (c :: acc) false

/-- Sentence list of a text. -/
def splitSentences (text : String) : List String :=
  (splitAux text.data [] false).map String.mk

/-- Python `" ".join(ss)`. -/
def joinSpStr : List String → String
  | [] => ""
  | [s] => s
  | s :: ss => s ++ " " ++ joinSpStr ss

/-- Score of a sentence: sum, over its tokens, of the token's frequency in
the token list of the whole text (`Counter` lookup, 0 when absent). -/
def sentenceScore (allWords : List String) (s : String) : Nat :=
  ((tokenize s).map (fun w => allWords.count w)).sum

/-- Descending order on `(score, sentence)` pairs, as produced by Python's
`sorted(..., reverse=True)` on `(int, str)` tuples: higher score first; on
equal scores the lexicographically larger sentence text first. Pairs
comparing both ways are equal, so every sort by this total order returns
the one same list the source's `sorted` call returns. -/
def pairGE (a b : Nat × String) : Prop :=
  b.1 < a.1 ∨ (a.1 = b.1 ∧ b.2 ≤ a.2)

instance : DecidableRel pairGE := fun a b => by
  unfold pairGE; infer_instance

/-- `summarize_text`: split into sentences; with at most `maxSentences`
sentences return the stripped text unchanged; otherwise sort the
`(score, sentence)` pairs descending, take the top `maxSentences`, strip
them, drop empties and join with single spaces in score order. -/
def summarize_text (text : String) (maxSentences : Nat) : String :=
  let sentences := splitSentences text
  if sentences.length ≤ maxSentences then pyStripStr text
  else
    let ws := tokenize text
    let scored := sentences.map (fun s => (sentenceScore ws s, s))
    let top := ((List.insertionSort pairGE scored).take maxSentences).map
      (fun p => p.2)
    joinSpStr ((top.map pyStripStr).filter (fun t => t ≠ ""))

/-- Result record of `sentiment_score`. -/
structure SentimentResult where
  score : Int
  label : String
deriving DecidableEq

/-- Net polarity contribution of one text: +1 per positive-word token
occurrence, −1 per negative-word token occurrence. -/
def textSentiment (t : String) : Int :=
  (((tokenize t).countP (fun w => decide (w ∈ POS_WORDS))) : Int)
    - (((tokenize t).countP (fun w => decide (w ∈ NEG_WORDS))) : Int)

/-- Total sentiment score over a list of texts. -/
def totalScore (texts : List String) : Int := (texts.map textSentiment).sum

/-- Label thresholds of `sentiment_score`. -/
def sentLabel (score : Int) : String :=
  if 2 ≤ score then "bullish" else if score ≤ -2 then "bearish"
  else "neutral"

/-- `sentiment_score`: score plus threshold label. -/
def sentiment_score (texts : List String) : SentimentResult :=
  ⟨totalScore texts, sentLabel (totalScore texts)⟩

/-- A raw feed item; all fields are plain strings. -/
structure FeedItem where
  source : String
  title : String
  link : String
  summary : String
  published : String
deriving DecidableEq

/-- Python `it.get("link") or it.get("title")`: the link unless empty. -/
def itemKey (it : FeedItem) : String :=
  if it.link = "" then it.title else it.link

/-- Loop of `dedupe` with its `seen` key set. -/
def dedupeAux : List FeedItem → List String → List FeedItem
  | [], _ => []
  | it :: rest, seen =>
    if itemKey it ∈ seen then dedupeAux rest seen
    else it :: dedupeAux rest (itemKey it :: seen)

/-- `dedupe`: keep the first item carrying each identity key. -/
def dedupe (items : List FeedItem) : List FeedItem := dedupeAux items []

/-- Result record of `build_summary_sentiment`. -/
structure SummaryResult where
  summary : String
  sentiment : SentimentResult
deriving DecidableEq

/-- Combined text of `build_summary_sentiment`: `"<title>. <summary>"` per
item, space-joined. -/
def combinedText (items : List FeedItem) : String :=
  joinSpStr (items.map (fun i => i.title ++ ". " ++ i.summary))

/-- `build_summary_sentiment`: summary of the combined text (fixed fallback
when it is empty) plus sentiment over the `"<title> <summary>"` texts. -/
def build_summary_sentiment (items : List FeedItem) : SummaryResult :=
  let combined := combinedText items
  let summary :=
    if combined = "" then "No items found." else summarize_text combined 3
  ⟨summary, sentiment_score (items.map (fun i => i.title ++ " " ++ i.summary))⟩

/-- Spec-side join of chunks with single spaces. -/
def joinSp : List (List Char) → List Char
  | [] => []
  | [r] => r
  | r :: rs => r ++ ' ' :: joinSp rs

/-- Spec-side normalizer: the maximal non-whitespace runs joined by single
spaces — "replace any run of whitespace with a single space; trim
leading/trailing space". -/
def normalizeSpec (s : String) : String :=
  String.mk (joinSp (runs (fun c => !isPySpace c) s.data))

/-- Spec-side deduplication: keep the first occurrence of each identity key
and drop all subsequent occurrences. -/
def dedupeSpec : List FeedItem → List FeedItem
  | [] => []
  | it :: rest =>
    it :: dedupeSpec (rest.filter (fun x => decide (itemKey x ≠ itemKey it)))
termination_by l => l.length
decreasing_by
  simp only [List.length_cons]
  exact Nat.lt_succ_of_le (List.length_filter_le _ _)

/-! ### General list helpers -/

theorem dropWhileLenLe (p : Char → Bool) (l : List Char) :
    (l.dropWhile p).length ≤ l.length := by
  induction l with
  | nil => simp
  | cons a l ih =>
    by_cases h : p a
    · rw [List.dropWhile_cons_of_pos h]
      exact ih.trans (Nat.le_succ _)
    · rw [List.dropWhile_cons_of_neg h]

theorem sumMapSubInt (f g : String → Int) (l : List String) :
    (l.map (fun x => f x - g x)).sum = (l.map f).sum - (l.map g).sum := by
  induction l with
  | nil => simp
  | cons a l ih => simp only [List.map_cons, List.sum_cons, ih]; ring

/-! ### Claim theorems: easy closed facts -/

/-- Claim C3: on the empty item sequence, `build_summary_sentiment` returns
the fixed fallback summary together with sentiment score 0 and label
neutral. -/
theorem build_summary_sentiment_empty :
    build_summary_sentiment [] =
      ⟨"No items found.", ⟨0, "neutral"⟩⟩ := by
  decide

/-- Claim C10: `tokenize` can return a token with no alphabetic character:
a run of three apostrophes is a candidate token, is no stopword, has
length 3 > 2, and so survives both filters. -/
theorem tokenize_apostrophe_run :
    tokenize (String.mk ['\'','\'','\'']) = [String.mk ['\'','\'','\'']] ∧
      ∀ c ∈ (String.mk ['\'','\'','\'']).data, c.isAlpha = false := by
  decide

/-- Claim C5: when the sentence count of the text is at most
`maxSentences`, `summarize_text` short-circuits and returns the
whitespace-trimmed original text unchanged. -/
theorem summarize_text_short_circuit (text : String) (maxSentences : Nat)
    (h : (splitSentences text).length ≤ maxSentences) :
    summarize_text text maxSentences = pyStripStr text := by
  unfold summarize_text
  simp only [h, if_true]

/-- Witness for C5 at a concrete two-sentence text and limit 3. -/
theorem summarize_text_short_circuit_spot :
    (splitSentences ("Hi there.  ok")).length ≤ 3 ∧
      summarize_text ("Hi there.  ok") 3 = pyStripStr ("Hi there.  ok") :=
  ⟨by decide, summarize_text_short_circuit ("Hi there.  ok") 3 (by decide)⟩

/-! ### Sentiment scoring -/

theorem sentLabel_cases (s : Int) :
    (sentLabel s = "bullish" ↔ 2 ≤ s) ∧
      (sentLabel s = "bearish" ↔ s ≤ -2) ∧
      (sentLabel s = "neutral" ↔ (-2 < s ∧ s < 2)) := by
  unfold sentLabel
  split_ifs with h1 h2 <;>
    refine ⟨?_, ?_, ?_⟩ <;>
    constructor <;>
    intro hx <;>
    first
      | omega
      | rfl
      | (exfalso; revert hx; decide)

/-- Claim C1: the sentiment score equals the total number of positive-word
token occurrences minus the total number of negative-word token
occurrences over all tokenized texts, and the label is bullish exactly
for score ≥ 2, bearish exactly for score ≤ −2, and neutral exactly for
scores strictly between. -/
theorem sentiment_score_spec (texts : List String) :
    (sentiment_score texts).score =
        (texts.map (fun t =>
            (((tokenize t).countP (fun w => decide (w ∈ POS_WORDS))) : Int))).sum
          - (texts.map (fun t =>
            (((tokenize t).countP (fun w => decide (w ∈ NEG_WORDS))) : Int))).sum ∧
      ((sentiment_score texts).label = "bullish" ↔
        2 ≤ (sentiment_score texts).score) ∧
      ((sentiment_score texts).label = "bearish" ↔
        (sentiment_score texts).score ≤ -2) ∧
      ((sentiment_score texts).label = "neutral" ↔
        (-2 < (sentiment_score texts).score ∧
          (sentiment_score texts).score < 2)) := by
  refine ⟨?_, sentLabel_cases (totalScore texts)⟩
  show totalScore texts = _
  unfold totalScore textSentiment
  exact sumMapSubInt _ _ texts

/-! ### Deduplication -/

theorem dedupeAux_sublist (l : List FeedItem) (seen : List String) :
    (dedupeAux l seen).Sublist l := by
  induction l generalizing seen with
  | nil => simp [dedupeAux]
  | cons it rest ih =>
    unfold dedupeAux
    by_cases h : itemKey it ∈ seen
    · rw [if_pos h]
      exact (ih seen).cons it
    · rw [if_neg h]
      exact (ih _).cons₂ it

theorem dedupeAux_keys_nodup (l : List FeedItem) (seen : List String) :
    ((dedupeAux l seen).map itemKey).Nodup ∧
      ∀ k ∈ (dedupeAux l seen).map itemKey, k ∉ seen := by
  induction l generalizing seen with
  | nil => simp [dedupeAux]
  | cons it rest ih =>
    unfold dedupeAux
    by_cases h : itemKey it ∈ seen
    · rw [if_pos h]
      exact ih seen
    · rw [if_neg h]
      obtain ⟨hn, hs⟩ := ih (itemKey it :: seen)
      refine ⟨List.nodup_cons.mpr ⟨fun hm => ?_, hn⟩, ?_⟩
      · exact (hs _ hm) (List.mem_cons_self _ _)
      · intro k hk
        rcases List.mem_cons.mp hk with hk | hk
        · exact hk ▸ h
        · intro hks
          exact (hs k hk) (List.mem_cons_of_mem _ hks)

theorem dedupeAux_eq_spec (l : List FeedItem) (seen : List String) :
    dedupeAux l seen =
      dedupeSpec (l.filter (fun x => decide (itemKey x ∉ seen))) := by
  induction l generalizing seen with
  | nil => simp [dedupeAux, dedupeSpec]
  | cons it rest ih =>
    unfold dedupeAux
    by_cases h : itemKey it ∈ seen
    · rw [if_pos h, List.filter_cons_of_neg (by simpa using h)]
      exact ih seen
    · rw [if_neg h, List.filter_cons_of_pos (by simpa using h)]
      rw [dedupeSpec, ih (itemKey it :: seen), List.filter_filter]
      congr 1
      congr 1
      apply List.filter_congr
      intro x _
      rw [Bool.and_comm, ← Bool.decide_and, decide_eq_decide]
      simp [List.mem_cons, not_or]
      tauto

theorem dedupe_eq_dedupeSpec (items : List FeedItem) :
    dedupe items = dedupeSpec items := by
  unfold dedupe
  rw [dedupeAux_eq_spec]
  congr 1
  apply List.filter_eq_self.mpr
  intro a _
  simp

theorem dedupeSpec_key_complete (l : List FeedItem) :
    ∀ it ∈ l, ∃ it2 ∈ dedupeSpec l, itemKey it2 = itemKey it := by
  induction l using dedupeSpec.induct with
  | case1 => intro it h; cases h
  | case2 hd rest ih =>
    intro it hmem
    rcases List.mem_cons.mp hmem with hh | ht
    · exact ⟨hd, by rw [dedupeSpec]; exact List.mem_cons_self _ _, by rw [hh]⟩
    · by_cases hk : itemKey it = itemKey hd
      · exact ⟨hd, by rw [dedupeSpec]; exact List.mem_cons_self _ _, hk.symm⟩
      · have hmf : it ∈ rest.filter (fun x => decide (itemKey x ≠ itemKey hd)) :=
          List.mem_filter.mpr ⟨ht, by simpa using hk⟩
        obtain ⟨it2, h2, hkey⟩ := ih it hmf
        exact ⟨it2, by rw [dedupeSpec]; exact List.mem_cons_of_mem _ h2, hkey⟩

/-- Claim C4: `dedupe` computes each item's key as link-if-non-empty else
title, keeps exactly the first occurrence of each key (it agrees with the
specification recursion `dedupeSpec`), its output is a sublist of the
input (so the first-seen relative order is preserved), no two retained
items share a key, every input key is represented, and at most one
retained item has the empty key. -/
theorem dedupe_first_occurrence (items : List FeedItem) :
    dedupe items = dedupeSpec items ∧
      (dedupe items).Sublist items ∧
      ((dedupe items).map itemKey).Nodup ∧
      (∀ it ∈ items, ∃ it2 ∈ dedupe items, itemKey it2 = itemKey it) ∧
      (∀ it : FeedItem,
        itemKey it = if it.link = "" then it.title else it.link) ∧
      ((dedupe items).map itemKey).count ("") ≤ 1 := by
  refine ⟨dedupe_eq_dedupeSpec items, dedupeAux_sublist items [],
    (dedupeAux_keys_nodup items []).1, ?_, fun it => rfl, ?_⟩
  · rw [dedupe_eq_dedupeSpec]
    exact dedupeSpec_key_complete items
  · exact List.nodup_iff_count_le_one.mp (dedupeAux_keys_nodup items []).1 _

theorem dedupeAux_of_nodup (l : List FeedItem) (seen : List String)
    (hn : (l.map itemKey).Nodup) (hs : ∀ k ∈ l.map itemKey, k ∉ seen) :
    dedupeAux l seen = l := by
  induction l generalizing seen with
  | nil => rfl
  | cons it rest ih =>
    unfold dedupeAux
    rw [if_neg (hs _ (by simp))]
    congr 1
    apply ih
    · exact (List.nodup_cons.mp (by simpa using hn)).2
    · intro k hk
      simp only [List.mem_cons, not_or]
      constructor
      · intro he
        exact (List.nodup_cons.mp (by simpa using hn)).1 (he ▸ hk)
      · exact hs k (List.mem_cons_of_mem _ hk)

/-- Claim C6: `dedupe` is idempotent. -/
theorem dedupe_idempotent (items : List FeedItem) :
    dedupe (dedupe items) = dedupe items := by
  unfold dedupe
  apply dedupeAux_of_nodup
  · exact (dedupeAux_keys_nodup items []).1
  · intro k _
    exact List.not_mem_nil k

/-! ### Maximal-run extraction -/

theorem takeWhileAllApp (p : Char → Bool) (a b : List Char)
    (h : ∀ x ∈ a, p x = true) : (a ++ b).takeWhile p = a ++ b.takeWhile p := by
  induction a with
  | nil => simp
  | cons x a ih =>
    simp only [List.cons_append]
    rw [List.takeWhile_cons_of_pos (h x (by simp))]
    rw [ih (fun y hy => h y (by simp [hy]))]

theorem dropWhileAllApp (p : Char → Bool) (a b : List Char)
    (h : ∀ x ∈ a, p x = true) : (a ++ b).dropWhile p = b.dropWhile p := by
  induction a with
  | nil => simp
  | cons x a ih =>
    simp only [List.cons_append]
    rw [List.dropWhile_cons_of_pos (h x (by simp))]
    exact ih (fun y hy => h y (by simp [hy]))

/-- Chunked reformulation of maximal-run extraction, convenient for
proofs: take the whole leading run, recurse after it. -/
def runsWF (p : Char → Bool) : List Char → List (List Char)
  | [] => []
  | c :: cs =>
    if p c then ((c :: cs).takeWhile p) :: runsWF p (cs.dropWhile p)
    else runsWF p cs
termination_by l => l.length
decreasing_by
  all_goals simp only [List.length_cons]
  · exact Nat.lt_succ_of_le (dropWhileLenLe _ _)
  · exact Nat.lt_succ_self _

theorem runsWF_nil (p : Char → Bool) : runsWF p [] = [] := by
  rw [runsWF.eq_def]

theorem runsWF_cons_pos (p : Char → Bool) (c : Char) (cs : List Char)
    (h : p c = true) :
    runsWF p (c :: cs) = ((c :: cs).takeWhile p) :: runsWF p (cs.dropWhile p) := by
  rw [runsWF.eq_def]
  simp [h]

theorem runsWF_cons_neg (p : Char → Bool) (c : Char) (cs : List Char)
    (h : ¬p c = true) : runsWF p (c :: cs) = runsWF p cs := by
  rw [runsWF.eq_def]
  simp [h]

theorem runsAux_eq_runsWF (p : Char → Bool) (l : List Char) :
    ∀ acc : List Char, (∀ x ∈ acc, p x = true) →
      runsAux p l acc = runsWF p (acc.reverse ++ l) := by
  induction l with
  | nil =>
    intro acc hacc
    unfold runsAux
    cases hrev : acc.reverse with
    | nil =>
      rw [if_pos (List.reverse_eq_nil_iff.mp hrev)]
      simp [runsWF]
    | cons b bs =>
      have hane : acc ≠ [] := by
        intro he
        rw [he] at hrev
        cases hrev
      rw [if_neg hane, List.append_nil]
      have hb : p b = true := hacc b (by rw [← List.mem_reverse, hrev]; simp)
      have hbs : ∀ x ∈ bs, p x = true := fun x hx =>
        hacc x (by rw [← List.mem_reverse, hrev]; simp [hx])
      rw [runsWF_cons_pos p b bs hb]
      have ht : (b :: bs).takeWhile p = b :: bs := by
        rw [List.takeWhile_cons_of_pos hb]
        have := takeWhileAllApp p bs [] hbs
        simpa using this
      have hd : bs.dropWhile p = [] := by
        have := dropWhileAllApp p bs [] hbs
        simpa using this
      rw [ht, hd]
      simp [runsWF_nil]
  | cons c cs ih =>
    intro acc hacc
    unfold runsAux
    by_cases hp : p c
    · rw [if_pos hp, ih (c :: acc)
        (by intro x hx
            rcases List.mem_cons.mp hx with h | h
            · rw [h]; exact hp
            · exact hacc x h)]
      congr 1
      simp [List.reverse_cons, List.append_assoc]
    · rw [if_neg hp]
      by_cases ha : acc = []
      · rw [if_pos ha, ih [] (by simp), ha]
        simp only [List.reverse_nil, List.nil_append]
        rw [runsWF_cons_neg p c cs hp]
      · rw [if_neg ha, ih [] (by simp)]
        simp only [List.reverse_nil, List.nil_append]
        cases hrev : acc.reverse with
        | nil => exact absurd (List.reverse_eq_nil_iff.mp hrev) ha
        | cons b bs =>
          have hb : p b = true := hacc b (by rw [← List.mem_reverse, hrev]; simp)
          have hbs : ∀ x ∈ bs, p x = true := fun x hx =>
            hacc x (by rw [← List.mem_reverse, hrev]; simp [hx])
          rw [List.cons_append, runsWF_cons_pos p b (bs ++ c :: cs) hb]
          have ht : (b :: (bs ++ c :: cs)).takeWhile p = b :: bs := by
            rw [List.takeWhile_cons_of_pos hb, takeWhileAllApp p bs (c :: cs) hbs,
              List.takeWhile_cons_of_neg hp, List.append_nil]
          have hd : (bs ++ c :: cs).dropWhile p = c :: cs := by
            rw [dropWhileAllApp p bs (c :: cs) hbs, List.dropWhile_cons_of_neg hp]
          rw [ht, hd, runsWF_cons_neg p c cs hp]

theorem runs_eq_runsWF (p : Char → Bool) (l : List Char) :
    runs p l = runsWF p l := by
  unfold runs
  rw [runsAux_eq_runsWF p l [] (by simp)]
  simp

theorem runsWF_flatten (p : Char → Bool) (l : List Char) :
    (runsWF p l).flatten = l.filter p := by
  induction l using runsWF.induct p with
  | case1 => simp [runsWF_nil]
  | case2 c cs h ih =>
    rw [runsWF_cons_pos p c cs h, List.flatten_cons, ih]
    have hsplit := List.takeWhile_append_dropWhile p (c :: cs)
    conv_rhs => rw [← hsplit]
    rw [List.filter_append]
    congr 1
    · symm
      apply List.filter_eq_self.mpr
      intro a ha
      exact List.mem_takeWhile_imp ha
    · rw [List.dropWhile_cons_of_pos h]
  | case3 c cs h ih =>
    rw [runsWF_cons_neg p c cs h, ih, List.filter_cons_of_neg (by simpa using h)]

theorem runsWF_chunks (p : Char → Bool) (l : List Char) :
    ∀ r ∈ runsWF p l, r ≠ [] ∧ ∀ c ∈ r, p c = true := by
  induction l using runsWF.induct p with
  | case1 => simp [runsWF_nil]
  | case2 c cs h ih =>
    intro r hr
    rw [runsWF_cons_pos p c cs h] at hr
    rcases List.mem_cons.mp hr with hr | hr
    · subst hr
      refine ⟨?_, fun x hx => List.mem_takeWhile_imp hx⟩
      rw [List.takeWhile_cons_of_pos h]
      exact List.cons_ne_nil _ _
    · exact ih r hr
  | case3 c cs h ih =>
    intro r hr
    rw [runsWF_cons_neg p c cs h] at hr
    exact ih r hr

/-- Claim C7: `tokenize` lowercases the input, extracts the maximal runs of
letters and apostrophes as candidates, and keeps, in order and with
multiplicity, exactly the candidates that are no stopword and are longer
than 2 characters; hence no output token is a stopword or shorter than 3.
The runs are genuine: each is non-empty, consists of word characters
only, and together they carry every word character of the lowered text in
order. -/
theorem tokenize_characterization (s : String) :
    tokenize s = ((runs isWordChar (lowerData s)).map String.mk).filter
        (fun w => !decide (w ∈ STOPWORDS) && decide (2 < w.length)) ∧
      (∀ w ∈ tokenize s, w ∉ STOPWORDS ∧ 2 < w.length) ∧
      ((runs isWordChar (lowerData s)).flatten =
        (lowerData s).filter isWordChar) ∧
      (∀ r ∈ runs isWordChar (lowerData s),
        r ≠ [] ∧ ∀ c ∈ r, isWordChar c = true) := by
  refine ⟨rfl, ?_, ?_, ?_⟩
  · intro w hw
    have := List.of_mem_filter hw
    simp only [Bool.and_eq_true, Bool.not_eq_true', decide_eq_false_iff_not,
      decide_eq_true_eq] at this
    exact this
  · rw [runs_eq_runsWF]
    exact runsWF_flatten _ _
  · rw [runs_eq_runsWF]
    exact runsWF_chunks _ _

/-! ### Summarizer sentence selection -/

instance : IsTrans (Nat × String) pairGE where
  trans a b c hab hbc := by
    unfold pairGE at hab hbc ⊢
    rcases hab with h1 | ⟨e1, s1⟩ <;> rcases hbc with h2 | ⟨e2, s2⟩
    · left; omega
    · left; omega
    · left; omega
    · right; exact ⟨e1.trans e2, s2.trans s1⟩

instance : IsTotal (Nat × String) pairGE where
  total a b := by
    unfold pairGE
    rcases Nat.lt_trichotomy a.1 b.1 with h | h | h
    · right; left; exact h
    · rcases le_total a.2 b.2 with hs | hs
      · right; right; exact ⟨h.symm, hs⟩
      · left; right; exact ⟨h, hs⟩
    · left; left; exact h

/-- Claim C2: with more than `maxSentences` sentences, `summarize_text`
scores every sentence by the sum of its tokens' global frequencies, sorts
the `(score, sentence)` pairs descending — among equal scores the
lexicographically later sentence text first, which is what `pairGE`
says — takes the top `maxSentences`, and returns them stripped, with
empties skipped, joined by single spaces in that score order. -/
theorem summarize_text_top_sentences (text : String) (maxS : Nat)
    (h : maxS < (splitSentences text).length) :
    ∃ sorted : List (Nat × String),
      sorted.Perm ((splitSentences text).map
          (fun s => (sentenceScore (tokenize text) s, s))) ∧
        List.Sorted pairGE sorted ∧
        summarize_text text maxS =
          joinSpStr ((((sorted.take maxS).map (fun p => p.2)).map
            pyStripStr).filter (fun t => t ≠ "")) := by
  refine ⟨List.insertionSort pairGE ((splitSentences text).map
      (fun s => (sentenceScore (tokenize text) s, s))),
    List.perm_insertionSort _ _, List.sorted_insertionSort _ _, ?_⟩
  unfold summarize_text
  simp only []
  rw [if_neg (Nat.not_le.mpr h)]

/-- Witness for C2 at a concrete four-sentence text and limit 3. -/
theorem summarize_text_top_sentences_spot :
    3 < (splitSentences ("Aa bb. Cc dd. Ee ff. Gg hh.")).length ∧
      ∃ sorted : List (Nat × String),
        sorted.Perm ((splitSentences ("Aa bb. Cc dd. Ee ff. Gg hh.")).map
            (fun s =>
              (sentenceScore (tokenize ("Aa bb. Cc dd. Ee ff. Gg hh.")) s,
                s))) ∧
          List.Sorted pairGE sorted ∧
          summarize_text ("Aa bb. Cc dd. Ee ff. Gg hh.") 3 =
            joinSpStr ((((sorted.take 3).map (fun p => p.2)).map
              pyStripStr).filter (fun t => t ≠ "")) :=
  ⟨by decide,
    summarize_text_top_sentences ("Aa bb. Cc dd. Ee ff. Gg hh.") 3 (by decide)⟩

/-! ### Orchestrator on non-empty batches -/

theorem combinedTextLen (items : List FeedItem) :
    items ≠ [] → 2 * items.length ≤ (combinedText items).length := by
  induction items with
  | nil => intro h; exact absurd rfl h
  | cons i rest ih =>
    intro _
    cases rest with
    | nil =>
      have heq : combinedText [i] = i.title ++ ". " ++ i.summary := rfl
      rw [heq, String.length_append, String.length_append]
      have h2 : (String.length (". ")) = 2 := rfl
      simp only [List.length_cons, List.length_nil]
      omega
    | cons j rest2 =>
      have heq : combinedText (i :: j :: rest2) =
          (i.title ++ ". " ++ i.summary) ++ " " ++
            combinedText (j :: rest2) := rfl
      rw [heq, String.length_append, String.length_append,
        String.length_append, String.length_append]
      have ihr := ih (List.cons_ne_nil _ _)
      have h2 : (String.length (". ")) = 2 := rfl
      have h1 : (String.length (" ")) = 1 := rfl
      simp only [List.length_cons] at ihr ⊢
      omega

/-- Claim C9: the fallback branch of `build_summary_sentiment` is taken
exactly on the empty batch: for a non-empty batch the combined text has
at least two characters per item (each item contributes a period and a
space even with empty title and summary), so it is non-empty and the
summary is produced by `summarize_text` on it with three sentences. -/
theorem build_summary_nonempty_uses_summarizer (items : List FeedItem)
    (h : items ≠ []) :
    combinedText items ≠ "" ∧
      2 * items.length ≤ (combinedText items).length ∧
      (build_summary_sentiment items).summary =
        summarize_text (combinedText items) 3 := by
  have hlen := combinedTextLen items h
  have hpos : 0 < items.length := List.length_pos.mpr h
  have hne : combinedText items ≠ "" := by
    intro he
    have hz : (combinedText items).length = 0 := by rw [he]; rfl
    omega
  refine ⟨hne, hlen, ?_⟩
  show (if combinedText items = "" then "No items found."
    else summarize_text (combinedText items) 3) =
      summarize_text (combinedText items) 3
  rw [if_neg hne]

/-- Witness for C9 at a single all-empty item. -/
theorem build_summary_nonempty_spot :
    ([(⟨"", "", "", "", ""⟩ : FeedItem)] ≠ []) ∧
      (combinedText [(⟨"", "", "", "", ""⟩ : FeedItem)] ≠ "" ∧
        2 * ([(⟨"", "", "", "", ""⟩ : FeedItem)]).length ≤
          (combinedText [(⟨"", "", "", "", ""⟩ : FeedItem)]).length ∧
        (build_summary_sentiment [(⟨"", "", "", "", ""⟩ : FeedItem)]).summary =
          summarize_text (combinedText [(⟨"", "", "", "", ""⟩ : FeedItem)]) 3) :=
  ⟨by decide, build_summary_nonempty_uses_summarizer _ (by decide)⟩

/-! ### Normalizer: collapse-and-strip equals join-of-words -/

/-- Chunked reformulation of whitespace collapsing: emit one space per
whitespace run, skip the rest of the run. -/
def subWS : List Char → List Char
  | [] => []
  | c :: cs =>
    if isPySpace c then ' ' :: subWS (cs.dropWhile isPySpace)
    else c :: subWS cs
termination_by l => l.length
decreasing_by
  all_goals simp only [List.length_cons]
  · exact Nat.lt_succ_of_le (dropWhileLenLe _ _)
  · exact Nat.lt_succ_self _

theorem subWS_nil : subWS [] = [] := by
  rw [subWS.eq_def]

theorem subWS_cons_pos (c : Char) (cs : List Char) (h : isPySpace c = true) :
    subWS (c :: cs) = ' ' :: subWS (cs.dropWhile isPySpace) := by
  rw [subWS.eq_def]
  simp [h]

theorem subWS_cons_neg (c : Char) (cs : List Char) (h : ¬isPySpace c = true) :
    subWS (c :: cs) = c :: subWS cs := by
  rw [subWS.eq_def]
  simp [h]

theorem collapseTrue (l : List Char) :
    collapseAux true l = collapseAux false (l.dropWhile isPySpace) := by
  induction l with
  | nil => rfl
  | cons c cs ih =>
    by_cases h : isPySpace c
    · rw [List.dropWhile_cons_of_pos h]
      simpa [collapseAux, h] using ih
    · rw [List.dropWhile_cons_of_neg h]
      simp [collapseAux, h]

theorem collapse_eq_subWS (l : List Char) : collapseAux false l = subWS l := by
  induction l using subWS.induct with
  | case1 => rw [subWS_nil]; rfl
  | case2 c cs h ih =>
    rw [subWS_cons_pos c cs h]
    have hstep : collapseAux false (c :: cs) = ' ' :: collapseAux true cs := by
      simp [collapseAux, h]
    rw [hstep, collapseTrue, ih]
  | case3 c cs h ih =>
    rw [subWS_cons_neg c cs h]
    have hstep : collapseAux false (c :: cs) = c :: collapseAux false cs := by
      simp [collapseAux, h]
    rw [hstep, ih]

theorem dropWhileHeadNeg (p : Char → Bool) (l : List Char) :
    ∀ c cs', l.dropWhile p = c :: cs' → p c = false := by
  induction l with
  | nil => intro c cs' h; cases h
  | cons a l ih =>
    intro c cs' h
    by_cases ha : p a
    · rw [List.dropWhile_cons_of_pos ha] at h
      exact ih c cs' h
    · rw [List.dropWhile_cons_of_neg ha] at h
      injection h with h1 _
      subst h1
      simp only [Bool.not_eq_true] at ha
      exact ha

theorem subWSApp (a b : List Char) (h : ∀ x ∈ a, isPySpace x = false) :
    subWS (a ++ b) = a ++ subWS b := by
  induction a with
  | nil => simp
  | cons x a ih =>
    simp only [List.cons_append]
    rw [subWS_cons_neg x _ (by simp [h x (by simp)])]
    rw [ih (fun y hy => h y (by simp [hy]))]

/-- Removal of trailing whitespace. -/
def stripTrail (l : List Char) : List Char :=
  (l.reverse.dropWhile isPySpace).reverse

theorem pyStrip_eq_stripTrail (l : List Char) :
    pyStrip l = stripTrail (l.dropWhile isPySpace) := rfl

theorem stripTrailApp (a b : List Char) :
    stripTrail (a ++ b) =
      if stripTrail b = [] then stripTrail a else a ++ stripTrail b := by
  unfold stripTrail
  rw [List.reverse_append, List.dropWhile_append]
  by_cases hb : b.reverse.dropWhile isPySpace = []
  · rw [if_pos (by simp [hb]), if_pos (by simp [hb])]
  · rw [if_neg (by simp [hb]), if_neg (by simp [hb]), List.reverse_append,
      List.reverse_reverse]

theorem stripTrailAll (t : List Char) (h : ∀ x ∈ t, isPySpace x = false) :
    stripTrail t = t := by
  unfold stripTrail
  cases hrev : t.reverse with
  | nil => exact (List.reverse_eq_nil_iff.mp hrev).symm
  | cons b bs =>
    have hb : isPySpace b = false := h b (by rw [← List.mem_reverse, hrev]; simp)
    rw [List.dropWhile_cons_of_neg (by simp [hb]), ← hrev, List.reverse_reverse]

theorem joinSp_one (r : List Char) : joinSp [r] = r := rfl

theorem joinSp_cons_cons (r s : List Char) (rs : List (List Char)) :
    joinSp (r :: s :: rs) = r ++ ' ' :: joinSp (s :: rs) := rfl

theorem runsWF_dropLeadWS (l : List Char) :
    runsWF (fun c => !isPySpace c) (l.dropWhile isPySpace) =
      runsWF (fun c => !isPySpace c) l := by
  induction l with
  | nil => simp
  | cons c cs ih =>
    by_cases h : isPySpace c
    · rw [List.dropWhile_cons_of_pos h, ih,
        runsWF_cons_neg _ c cs (by simp [h])]
    · rw [List.dropWhile_cons_of_neg h]

theorem subWSHeadFix (l : List Char)
    (hh : ∀ c cs', l = c :: cs' → isPySpace c = false) :
    (subWS l).dropWhile isPySpace = subWS l := by
  cases l with
  | nil => rw [subWS_nil]; rfl
  | cons v vs =>
    have hv := hh v vs rfl
    rw [subWS_cons_neg v vs (by simp [hv]),
      List.dropWhile_cons_of_neg (by simp [hv])]

theorem stripLeadSubWS (l : List Char) :
    (subWS l).dropWhile isPySpace = subWS (l.dropWhile isPySpace) := by
  induction l using subWS.induct with
  | case1 => simp [subWS_nil]
  | case2 c cs h ih =>
    rw [subWS_cons_pos c cs h, List.dropWhile_cons_of_pos h,
      List.dropWhile_cons_of_pos (show isPySpace ' ' = true from rfl)]
    exact subWSHeadFix _ (fun c2 cs2 hh => dropWhileHeadNeg isPySpace cs c2 cs2 hh)
  | case3 c cs h ih =>
    rw [subWS_cons_neg c cs h, List.dropWhile_cons_of_neg h,
      List.dropWhile_cons_of_neg h, subWS_cons_neg c cs h]

theorem collapseStripJoin :
    ∀ n (l : List Char), l.length ≤ n →
      (∀ c cs', l = c :: cs' → isPySpace c = false) →
      stripTrail (subWS l) = joinSp (runsWF (fun x => !isPySpace x) l) := by
  intro n
  induction n with
  | zero =>
    intro l hl _
    have hnil : l = [] := List.length_eq_zero.mp (Nat.le_zero.mp hl)
    subst hnil
    rw [subWS_nil, runsWF_nil]
    rfl
  | succ n ih =>
    intro l hl hhead
    cases l with
    | nil =>
      rw [subWS_nil, runsWF_nil]
      rfl
    | cons c cs =>
      have hc : isPySpace c = false := hhead c cs rfl
      have hnws : (fun x => !isPySpace x) c = true := by simp [hc]
      have hT := List.takeWhile_append_dropWhile (fun x => !isPySpace x) (c :: cs)
      have hdrop : (c :: cs).dropWhile (fun x => !isPySpace x) =
          cs.dropWhile (fun x => !isPySpace x) :=
        List.dropWhile_cons_of_pos hnws
      have ht_all : ∀ x ∈ (c :: cs).takeWhile (fun x => !isPySpace x),
          isPySpace x = false := fun x hx => by
        simpa using List.mem_takeWhile_imp hx
      have ht_ne : (c :: cs).takeWhile (fun x => !isPySpace x) ≠ [] := by
        have he : (c :: cs).takeWhile (fun x => !isPySpace x) =
            c :: cs.takeWhile (fun x => !isPySpace x) :=
          List.takeWhile_cons_of_pos hnws
        rw [he]
        exact List.cons_ne_nil _ _
      have hsub : subWS (c :: cs) =
          (c :: cs).takeWhile (fun x => !isPySpace x) ++
            subWS (cs.dropWhile (fun x => !isPySpace x)) := by
        calc subWS (c :: cs)
            = subWS ((c :: cs).takeWhile (fun x => !isPySpace x) ++
                (c :: cs).dropWhile (fun x => !isPySpace x)) := by rw [hT]
          _ = (c :: cs).takeWhile (fun x => !isPySpace x) ++
                subWS ((c :: cs).dropWhile (fun x => !isPySpace x)) :=
              subWSApp _ _ ht_all
          _ = _ := by rw [hdrop]
      rw [hsub, runsWF_cons_pos _ _ _ hnws]
      cases hd : cs.dropWhile (fun x => !isPySpace x) with
      | nil =>
        rw [subWS_nil, runsWF_nil, List.append_nil, joinSp_one]
        exact stripTrailAll _ ht_all
      | cons w ds =>
        have hw : isPySpace w = true := by
          have := dropWhileHeadNeg (fun x => !isPySpace x) cs w ds hd
          simpa using this
        rw [subWS_cons_pos w ds hw]
        have hu_len : (ds.dropWhile isPySpace).length ≤ n := by
          have h1 : (ds.dropWhile isPySpace).length ≤ ds.length :=
            dropWhileLenLe _ _
          have h2 : (w :: ds).length ≤ cs.length := by
            rw [← hd]
            exact dropWhileLenLe _ _
          simp only [List.length_cons] at h2 hl
          omega
        have hu_head : ∀ c2 cs2, ds.dropWhile isPySpace = c2 :: cs2 →
            isPySpace c2 = false :=
          fun c2 cs2 hh => dropWhileHeadNeg isPySpace ds c2 cs2 hh
        have IHu := ih (ds.dropWhile isPySpace) hu_len hu_head
        have hrw : runsWF (fun x => !isPySpace x) (w :: ds) =
            runsWF (fun x => !isPySpace x) (ds.dropWhile isPySpace) := by
          rw [runsWF_cons_neg _ w ds (by simp [hw])]
          exact (runsWF_dropLeadWS ds).symm
        rw [hrw]
        cases hu : ds.dropWhile isPySpace with
        | nil =>
          rw [subWS_nil, runsWF_nil, joinSp_one]
          have hre : (c :: cs).takeWhile (fun x => !isPySpace x) ++
              [' '] = (c :: cs).takeWhile (fun x => !isPySpace x) ++ [' '] := rfl
          rw [stripTrailApp, if_pos (show stripTrail [' '] = [] from rfl)]
          exact stripTrailAll _ ht_all
        | cons v vs =>
          rw [hu] at IHu
          have hv : isPySpace v = false := hu_head v vs hu
          have hvnws : (fun x => !isPySpace x) v = true := by simp [hv]
          rw [runsWF_cons_pos _ _ _ hvnws] at IHu ⊢
          have hJne : joinSp ((v :: vs).takeWhile (fun x => !isPySpace x) ::
              runsWF (fun x => !isPySpace x)
                (vs.dropWhile (fun x => !isPySpace x))) ≠ [] := by
            cases hr2 : runsWF (fun x => !isPySpace x)
                (vs.dropWhile (fun x => !isPySpace x)) with
            | nil =>
              rw [joinSp_one]
              have he : (v :: vs).takeWhile (fun x => !isPySpace x) =
                  v :: vs.takeWhile (fun x => !isPySpace x) :=
                List.takeWhile_cons_of_pos hvnws
              rw [he]
              exact List.cons_ne_nil _ _
            | cons a as =>
              rw [joinSp_cons_cons]
              simp
          have hre : (c :: cs).takeWhile (fun x => !isPySpace x) ++
              ' ' :: subWS (v :: vs) =
                ((c :: cs).takeWhile (fun x => !isPySpace x) ++ [' ']) ++
                  subWS (v :: vs) := by
            simp
          rw [hre, stripTrailApp, if_neg (fun hh => hJne (by rw [← IHu]; exact hh)),
            IHu, joinSp_cons_cons]
          simp [List.append_assoc]

/-- Claim C8: `normalize_text` is total — an absent input behaves as the
empty string — and on every input it replaces each maximal whitespace run
(newlines and tabs included) by a single space and removes leading and
trailing space: it equals the spec-side normalizer that joins the maximal
non-whitespace runs with single spaces. -/
theorem normalize_text_matches_spec (text : Option String) :
    normalize_text text = normalizeSpec (Option.getD text ("")) ∧
      normalize_text none = "" := by
  constructor
  · show String.mk (pyStrip (collapseAux false (Option.getD text ("")).data)) =
      String.mk (joinSp (runs (fun c => !isPySpace c)
        (Option.getD text ("")).data))
    congr 1
    rw [collapse_eq_subWS, runs_eq_runsWF, pyStrip_eq_stripTrail,
      stripLeadSubWS,
      collapseStripJoin (((Option.getD text ("")).data.dropWhile isPySpace).length)
        ((Option.getD text ("")).data.dropWhile isPySpace) le_rfl
        (fun c cs' hh => dropWhileHeadNeg isPySpace _ c cs' hh),
      runsWF_dropLeadWS]
  · rfl
